import Mathlib

/-!
# mermaid-service: the diagram handler, the render pipeline and the line-break fixup

A shallow embedding of `main.go`.  Go strings and byte slices are sequences of
bytes; both are lists of `UInt8` here.  The operating system and the renderer
subprocess are an explicit `World` of call outcomes, the filesystem is the list
of paths that exist, and the package-level cache is passed as state.
-/

namespace Mermaid

/-! ## Bytes and text -/

/-- A Go `string` or `[]byte`: a finite sequence of bytes. -/
abbrev Bytes := List UInt8

/-- The bytes of an ASCII string literal of the source. -/
def ascii (s : String) : Bytes := s.data.map (fun c => UInt8.ofNat c.toNat)

/-! ## `strings.Replace`, as far as `cleanup` uses it (a non-empty `old`) -/

/-- Go's `strings.Index(s, substr)`: the position of the first occurrence of `substr`
in `s`; `none` is Go's `-1`. -/
def stringsIndex (substr : Bytes) : Bytes → Option Nat
  | [] => if substr <+: [] then some 0 else none
  | c :: rest =>
    if substr <+: c :: rest then some 0
    else (stringsIndex substr rest).map (· + 1)

/-- The loop of `strings.Count` for a substring of two bytes or more:
`for { i := Index(s, substr); if i == -1 { return n }; n++; s = s[i+len(substr):] }`.
The first argument bounds the number of iterations. -/
def countLoop (substr : Bytes) : Nat → Bytes → Nat
  | 0, _ => 0
  | fuel + 1, s =>
    match stringsIndex substr s with
    | none => 0
    | some i => countLoop substr fuel (s.drop (i + substr.length)) + 1

/-- Go's `strings.Count(s, substr)`: the number of non-overlapping occurrences.  Every
iteration consumes at least one byte, so `len(s) + 1` iterations are enough
(`countLoop_fuel`). -/
def stringsCount (s substr : Bytes) : Nat := countLoop substr (s.length + 1) s

/-- The loop of `strings.Replace`, run `n` times on the unread part of `s`:
`j := start + Index(s[start:], old); b.WriteString(s[start:j]); b.WriteString(new);
start = j + len(old)`, and `b.WriteString(s[start:])` after the loop.  `n` never
exceeds the count, so `Index` finds an occurrence in every iteration. -/
def replaceLoop (old new : Bytes) : Nat → Bytes → Bytes
  | 0, s => s
  | n + 1, s =>
    match stringsIndex old s with
    | some j => s.take j ++ new ++ replaceLoop old new n (s.drop (j + old.length))
    | none => s

/-- Go's `strings.Replace(s, old, new, n)`, for a non-empty `old`: the first `n`
non-overlapping occurrences are replaced, all of them when `n < 0`. -/
def stringsReplace (s old new : Bytes) (n : Int) : Bytes :=
  if old = new ∨ n = 0 then s
  else
    let m := stringsCount s old
    if m = 0 then s
    else replaceLoop old new (if n < 0 ∨ (m : Int) < n then m else n.toNat) s

/-- The tag `<br>`. -/
def brTag : Bytes := ascii "<br>"

/-- The tag `<br/>`. -/
def brClosed : Bytes := ascii "<br/>"

/-- The function `cleanup`: SVG is XHTML, so `<br>` in the output becomes `<br/>`. -/
def cleanup (s : Bytes) : Bytes := stringsReplace s brTag brClosed (-1)


/-! ## `base64.RawURLEncoding.DecodeString` -/

/-- The alphabet of `base64.URLEncoding`. -/
def encodeURL : Bytes :=
  ascii "ABCDEFGHIJKLMNOPQRSTUVWXYZabcdefghijklmnopqrstuvwxyz0123456789-_"

/-- The lookup `enc.decodeMap[in]`: the position of a byte in the alphabet; `none`
is the table's `0xff`. -/
def decodeMap (c : UInt8) : Option Nat :=
  let i := encodeURL.indexOf c
  if i < 64 then some i else none

/-- The digits read by `decodeQuantum`: a byte of the alphabet gives its six bits,
`\n` and `\r` are skipped, and any other byte is a `CorruptInputError` (the
encoding has no padding character). -/
def sextets : Bytes → Option (List Nat)
  | [] => some []
  | c :: rest =>
    match decodeMap c with
    | some d => (sextets rest).map (d :: ·)
    | none => if c = 10 ∨ c = 13 then sextets rest else none

/-- The value `uint(dbuf[0])<<18 | uint(dbuf[1])<<12 | uint(dbuf[2])<<6 | uint(dbuf[3])`. -/
def quantumVal (a b c d : Nat) : Nat := a <<< 18 ||| b <<< 12 ||| c <<< 6 ||| d

/-- The bytes written for the digits, four at a time: a full quantum gives three
bytes, a final group of three digits two bytes, of two digits one byte, and a
single trailing digit is a `CorruptInputError`. -/
def decodeQuanta : List Nat → Option Bytes
  | a :: b :: c :: d :: rest =>
    let val := quantumVal a b c d
    (decodeQuanta rest).map
      (fun t => UInt8.ofNat (val >>> 16) :: UInt8.ofNat (val >>> 8) :: UInt8.ofNat val :: t)
  | [a, b, c] =>
    let val := quantumVal a b c 0
    some [UInt8.ofNat (val >>> 16), UInt8.ofNat (val >>> 8)]
  | [a, b] =>
    let val := quantumVal a b 0 0
    some [UInt8.ofNat (val >>> 16)]
  | [_] => none
  | [] => some []

/-- Go's `base64.RawURLEncoding.DecodeString(s)`: `none` when it returns an error. -/
def decodeString (s : Bytes) : Option Bytes := (sextets s).bind decodeQuanta


/-! ## The cache (`lru.Cache` of `github.com/hashicorp/golang-lru`) -/

/-- An entry of the cache, with the logical time of its most recent access. -/
structure Entry where
  key : Bytes
  value : Bytes
  used : Nat
  deriving DecidableEq

/-- Modelled from the spec: the bounded cache `lru.Cache` (package
`github.com/hashicorp/golang-lru`, whose code is not among the sources): a
fixed-capacity key to bytes store; a `get` and a `put` both count as a use of the
entry; a `put` that exceeds the capacity evicts the least recently used entry.
The entries are kept most recently used first, and `clock` counts the accesses. -/
structure Cache where
  size : Nat
  clock : Nat
  items : List Entry
  deriving DecidableEq

/-- Modelled from the spec: `lru.New(size)`, the construction of the cache, which
is not among the sources: an empty cache of the given capacity; a capacity of
zero or less is an error. -/
def lruNew (size : Int) : Except Bytes Cache :=
  if size ≤ 0 then .error (ascii "Must provide a positive size")
  else .ok { size := size.toNat, clock := 0, items := [] }

/-- Modelled from the spec: `Cache.Get(key)`, which is not among the sources:
the bytes stored for exactly this key, or absent; a hit is a use of the entry,
which becomes the most recently used one. -/
def Cache.get (c : Cache) (k : Bytes) : Cache × Option Bytes :=
  match c.items.find? (fun e => decide (e.key = k)) with
  | some e =>
    ({ c with
        clock := c.clock + 1
        items := { e with used := c.clock } :: c.items.filter (fun x => decide (x.key ≠ k)) },
      some e.value)
  | none => (c, none)

/-- Modelled from the spec: `Cache.Add(key, value)`, which is not among the
sources: inserts or overwrites, the entry becoming the most recently used one;
when the capacity is exceeded the least recently used entry is evicted. -/
def Cache.add (c : Cache) (k v : Bytes) : Cache :=
  let e : Entry := { key := k, value := v, used := c.clock }
  if c.items.any (fun x => decide (x.key = k)) then
    { c with clock := c.clock + 1, items := e :: c.items.filter (fun x => decide (x.key ≠ k)) }
  else
    let items := e :: c.items
    { c with
        clock := c.clock + 1
        items := if items.length > c.size then items.dropLast else items }

/-- The function `getFromCache`: the cached bytes; `none` is the `nil` returned on a
miss (the slices stored come from `cleanup` and are never `nil`).  The updated
cache is returned along: the source's cache is a package variable. -/
def getFromCache (cache : Cache) (s : Bytes) : Cache × Option Bytes :=
  cache.get s

/-- The function `addToCache`: the result of `cache.Add` is discarded. -/
def addToCache (cache : Cache) (s data : Bytes) : Cache :=
  cache.add s data


/-! ## The operating system, seen from one request -/

deriving instance DecidableEq for Except

/-- A Go `error`, by the text that `Error()` returns. -/
abbrev GoError := Bytes

/-- The filesystem: the paths that exist. -/
abbrev Files := List Bytes

/-- What a call of `generate` or `diagramHandler` does to the outside, in order. -/
inductive Event where
  /-- The handler called `generate(data)`, which returned the given result. -/
  | generate (data : Bytes) (result : Except GoError Bytes)
  /-- The call `ioutil.TempFile(os.TempDir(), "mm_")`. -/
  | tempFile
  /-- The call `f.Write(input)` on the file of the given name. -/
  | write (name input : Bytes)
  /-- The renderer run: `exec.Command("mmdc", "-i", inputFile, outputFile).CombinedOutput()`. -/
  | run (inputFile outputFile : Bytes)
  /-- The call `ioutil.ReadFile(outputFile)`. -/
  | readFile (name : Bytes)
  /-- The call `os.Remove(name)`. -/
  | remove (name : Bytes)
  /-- The call `f.Close()` on the file of the given name. -/
  | close (name : Bytes)
  deriving DecidableEq

/-- The outcomes of the system calls of one call of `generate`. -/
structure World where
  /-- The call `ioutil.TempFile`: the name of the file created, or the error. -/
  tempFile : Except GoError Bytes
  /-- The call `f.Write(input)`: the error, if any. -/
  write : Option GoError
  /-- The combined standard output and standard error of the renderer. -/
  cmdOutput : Bytes
  /-- The error of `cmd.CombinedOutput()`: `none` when the renderer ran and exited
  with status zero. -/
  cmdErr : Option GoError
  /-- What the renderer run does to the filesystem. -/
  cmdFiles : Files → Files
  /-- The call `ioutil.ReadFile(outputFile)`: the bytes read, or the error. -/
  readFile : Except GoError Bytes
  /-- Whether `os.Remove` of the input file is carried out. -/
  removeInput : Bool
  /-- Whether `os.Remove` of the output file is carried out. -/
  removeOutput : Bool

/-- The call `os.Remove(name)`: when it succeeds the path is gone; when it fails the
filesystem is as before.  The error is only logged, or dropped, by `generate`. -/
def osRemove (succeeds : Bool) (fs : Files) (name : Bytes) : Files :=
  if succeeds then fs.filter (fun p => decide (p ≠ name)) else fs

/-- What `generate` returns, the filesystem it leaves and the calls it made. -/
structure Generated where
  result : Except GoError Bytes
  files : Files
  trace : List Event

/-- The function `generate`: write the input to a temporary file, run the renderer
on it, read the output file back and clean it up.  The deferred calls run when the
function returns, the last one registered first: the removal of the input file is
registered once the file is created, the close once it is written, the removal of
the output file once the renderer has been run. -/
def generate (w : World) (fs : Files) (input : Bytes) : Generated :=
  match w.tempFile with
  | .error err => { result := .error err, files := fs, trace := [.tempFile] }
  | .ok name =>
    let fs1 := name :: fs
    match w.write with
    | some err =>
      { result := .error err
        files := osRemove w.removeInput fs1 name
        trace := [.tempFile, .write name input, .remove name] }
    | none =>
      let inputFile := name
      let outputFile := inputFile ++ ascii ".svg"
      let fs2 := w.cmdFiles fs1
      let body : Except GoError Bytes × List Event :=
        match w.cmdErr with
        | some err => (.error err, [])
        | none =>
          if w.cmdOutput.length > 0 then (.error w.cmdOutput, [])
          else
            match w.readFile with
            | .error err => (.error err, [.readFile outputFile])
            | .ok output => (.ok (cleanup output), [.readFile outputFile])
      let fs3 := osRemove w.removeOutput fs2 outputFile
      let fs4 := osRemove w.removeInput fs3 name
      { result := body.1
        files := fs4
        trace := [.tempFile, .write name input, .run inputFile outputFile] ++ body.2
          ++ [.remove outputFile, .close name, .remove name] }

/-! ## The handler -/

/-- What a handler has written to its `http.ResponseWriter`. -/
structure Response where
  header : List (Bytes × Bytes)
  status : Option Nat
  body : Bytes
  deriving DecidableEq

/-- The response writer a handler is given. -/
def Response.new : Response := { header := [], status := none, body := [] }

/-- The call `w.Header().Add(key, value)`. -/
def Response.add (r : Response) (key value : Bytes) : Response :=
  { r with header := r.header ++ [(key, value)] }

/-- The call `w.WriteHeader(code)`. -/
def Response.writeHeader (r : Response) (code : Nat) : Response :=
  match r.status with
  | none => { r with status := some code }
  | some _ => r

/-- The call `w.Write(data)`, also through `fmt.Fprintf(w, ...)`; a write before any
`WriteHeader` sends status 200. -/
def Response.write (r : Response) (data : Bytes) : Response :=
  { r.writeHeader 200 with body := r.body ++ data }

/-- The constant `http.StatusBadRequest`. -/
def statusBadRequest : Nat := 400

/-- The constant `http.StatusInternalServerError`. -/
def statusInternalServerError : Nat := 500

/-- The constant `http.StatusOK`. -/
def statusOK : Nat := 200

/-- The function `writeResponse`. -/
def writeResponse (r : Response) (output : Bytes) : Response :=
  (((r.add (ascii "Content-Type") (ascii "image/svg+xml")).add
      (ascii "Cache-Control") (ascii "max-stale=31536000")).writeHeader statusOK).write output

/-- The state a request runs in: the package variable `cache` and the filesystem. -/
structure State where
  cache : Cache
  files : Files

/-- The state a request leaves, the response written and the calls made. -/
structure Handled where
  state : State
  response : Response
  trace : List Event

/-- The function `diagramHandler`, on the path left by `http.StripPrefix("/diagram/", ...)`. -/
def diagramHandler (w : World) (st : State) (path : Bytes) : Handled :=
  let rawInput := path
  if rawInput = [] then
    { state := st
      response := (Response.new.writeHeader statusBadRequest).write (ascii "Bad request")
      trace := [] }
  else
    match getFromCache st.cache rawInput with
    | (cache1, some output) =>
      { state := { st with cache := cache1 }
        response := writeResponse Response.new output
        trace := [] }
    | (cache1, none) =>
      match decodeString rawInput with
      | none =>
        { state := { st with cache := cache1 }
          response := (Response.new.writeHeader statusBadRequest).write (ascii "Bad request")
          trace := [] }
      | some data =>
        let g := generate w st.files data
        match g.result with
        | .error err =>
          { state := { cache := cache1, files := g.files }
            response := (Response.new.writeHeader statusInternalServerError).write
              (ascii "Unable to handle request: " ++ err)
            trace := .generate data g.result :: g.trace }
        | .ok output =>
          { state := { cache := addToCache cache1 rawInput output, files := g.files }
            response := writeResponse Response.new output
            trace := .generate data g.result :: g.trace }

/-- The caches that `main` and the handler produce: the cache built by `lru.New` at
startup, and the cache left by a request handled from such a cache.  Between
requests the filesystem may be anything. -/
inductive ReachableCache : Cache → Prop where
  | init (size : Int) (c : Cache) : lruNew size = .ok c → ReachableCache c
  | step (w : World) (st : State) (path : Bytes) :
      ReachableCache st.cache → ReachableCache (diagramHandler w st path).state.cache

/-- The caches reached from the cache `c0` through `addToCache` and `getFromCache`
only. -/
inductive Accessed (c0 : Cache) : Cache → Prop where
  | init : Accessed c0 c0
  | add (c : Cache) (s data : Bytes) : Accessed c0 c → Accessed c0 (addToCache c s data)
  | get (c : Cache) (s : Bytes) : Accessed c0 c → Accessed c0 (getFromCache c s).1


/-! ## Concrete requests -/

/-- The cache `main` builds for `-cache 2`. -/
def cacheOfTwo : Cache := { size := 2, clock := 0, items := [] }

/-- The cache `main` builds for `-cache 1`. -/
def cacheOfOne : Cache := { size := 1, clock := 0, items := [] }

/-- A renderer that writes its output file and prints nothing. -/
def quietWorld : World where
  tempFile := .ok (ascii "/tmp/mm_1")
  write := none
  cmdOutput := []
  cmdErr := none
  cmdFiles := fun fs => ascii "/tmp/mm_1.svg" :: fs
  readFile := .ok (ascii "<svg>a<br>b</svg>")
  removeInput := true
  removeOutput := true

/-- A renderer that prints a diagnostic and exits with status 1. -/
def exitWorld : World where
  tempFile := .ok (ascii "/tmp/mm_1")
  write := none
  cmdOutput := ascii "Parse error on line 1"
  cmdErr := some (ascii "exit status 1")
  cmdFiles := fun fs => fs
  readFile := .error (ascii "open /tmp/mm_1.svg: no such file or directory")
  removeInput := true
  removeOutput := true

/-- A renderer that exits with status zero after printing a warning. -/
def noisyWorld : World where
  tempFile := .ok (ascii "/tmp/mm_1")
  write := none
  cmdOutput := ascii "warning"
  cmdErr := none
  cmdFiles := fun fs => ascii "/tmp/mm_1.svg" :: fs
  readFile := .ok (ascii "<svg></svg>")
  removeInput := true
  removeOutput := true

/-- A full disk: the temporary file is created, the write to it fails. -/
def fullDiskWorld : World where
  tempFile := .ok (ascii "/tmp/mm_1")
  write := some (ascii "write /tmp/mm_1: no space left on device")
  cmdOutput := []
  cmdErr := none
  cmdFiles := fun fs => fs
  readFile := .error (ascii "open /tmp/mm_1.svg: no such file or directory")
  removeInput := true
  removeOutput := true

/-- A cache of capacity 1 in which `a` is added and then hit. -/
def hitInOne : Cache :=
  (getFromCache (addToCache cacheOfOne (ascii "a") (ascii "x")) (ascii "a")).1

/-- A cache of capacity 2 in which `a` is added and hit, and then `b` is added: the
cache is full and nothing has been evicted. -/
def hitInTwoThenAdd : Cache :=
  addToCache (getFromCache (addToCache cacheOfTwo (ascii "a") (ascii "x")) (ascii "a")).1
    (ascii "b") (ascii "y")

/-- The invariant of the cache: a positive capacity that is not exceeded, one entry
per key, the entries in the order of their last access, most recent first, and
every access before the present time. -/
def Cache.WF (c : Cache) : Prop :=
  1 ≤ c.size ∧ c.items.length ≤ c.size ∧ (c.items.map Entry.key).Nodup ∧
    c.items.Pairwise (fun a b => b.used < a.used) ∧ ∀ e ∈ c.items, e.used < c.clock


/-! ## The line-break fixup: lemmas -/

theorem brTag_eq : brTag = [60, 98, 114, 62] := by decide

theorem brClosed_eq : brClosed = [60, 98, 114, 47, 62] := by decide

theorem stringsIndex_eq_none (old : Bytes) :
    ∀ s : Bytes, stringsIndex old s = none ↔ ¬ old <:+: s
  | [] => by
    by_cases h : old = []
    · subst h; simp [stringsIndex]
    · simp [stringsIndex, h]
  | c :: rest => by
    have ih := stringsIndex_eq_none old rest
    by_cases h : old <+: c :: rest
    · simp [stringsIndex, h, List.infix_cons_iff]
    · simp [stringsIndex, h, List.infix_cons_iff, ih]

theorem stringsIndex_some (old : Bytes) :
    ∀ (s : Bytes) (j : Nat), stringsIndex old s = some j →
      old <+: s.drop j ∧ ∀ i, i < j → ¬ old <+: s.drop i
  | [], j, h => by
    by_cases h0 : old <+: []
    · simp [stringsIndex, h0] at h
      subst h
      exact ⟨by simpa using h0, by simp⟩
    · simp [stringsIndex, h0] at h
  | c :: rest, j, h => by
    by_cases h0 : old <+: c :: rest
    · simp [stringsIndex, h0] at h
      subst h
      exact ⟨by simpa using h0, by simp⟩
    · simp only [stringsIndex, h0, if_false, Option.map_eq_some'] at h
      obtain ⟨k, hk, rfl⟩ := h
      obtain ⟨h1, h2⟩ := stringsIndex_some old rest k hk
      refine ⟨by simpa using h1, ?_⟩
      intro i hi
      cases i with
      | zero => simpa using h0
      | succ i => simpa using h2 i (by omega)

theorem stringsIndex_split (old s : Bytes) (j : Nat) (h : stringsIndex old s = some j) :
    s = s.take j ++ old ++ s.drop (j + old.length) := by
  obtain ⟨t, ht⟩ := (stringsIndex_some old s j h).1
  have h2 : s.drop (j + old.length) = t := by
    have : (s.drop j).drop old.length = t := by rw [← ht]; simp
    rw [← this, List.drop_drop, Nat.add_comm]
  rw [h2, List.append_assoc, ht, List.take_append_drop]


theorem stringsIndex_length (old : Bytes) (hold : old ≠ []) (s : Bytes) (j : Nat)
    (h : stringsIndex old s = some j) : (s.drop (j + old.length)).length < s.length := by
  have hs := congrArg List.length (stringsIndex_split old s j h)
  have hpos : 0 < old.length := List.length_pos.mpr hold
  simp only [List.length_append] at hs
  omega

theorem countLoop_fuel (old : Bytes) (hold : old ≠ []) :
    ∀ (f1 f2 : Nat) (s : Bytes), s.length < f1 → s.length < f2 →
      countLoop old f1 s = countLoop old f2 s
  | 0, _, _, h, _ => by omega
  | _ + 1, 0, _, _, h => by omega
  | f1 + 1, f2 + 1, s, h1, h2 => by
    cases hi : stringsIndex old s with
    | none => simp [countLoop, hi]
    | some j =>
      have hl := stringsIndex_length old hold s j hi
      simp only [countLoop, hi]
      rw [countLoop_fuel old hold f1 f2 _ (by omega) (by omega)]

theorem stringsCount_none (old s : Bytes) (h : stringsIndex old s = none) :
    stringsCount s old = 0 := by
  simp [stringsCount, countLoop, h]

theorem stringsCount_some (old : Bytes) (hold : old ≠ []) (s : Bytes) (j : Nat)
    (h : stringsIndex old s = some j) :
    stringsCount s old = stringsCount (s.drop (j + old.length)) old + 1 := by
  have hl := stringsIndex_length old hold s j h
  have e : countLoop old (s.length + 1) s
      = countLoop old s.length (s.drop (j + old.length)) + 1 := by
    simp only [countLoop, h]
  rw [stringsCount, e, stringsCount,
    countLoop_fuel old hold s.length _ _ hl (Nat.lt_succ_self _)]

theorem cleanup_eq_loop (s : Bytes) :
    cleanup s = replaceLoop brTag brClosed (stringsCount s brTag) s := by
  have hne : brTag ≠ brClosed := by decide
  by_cases hm : stringsCount s brTag = 0
  · simp [cleanup, stringsReplace, hne, hm, replaceLoop]
  · simp [cleanup, stringsReplace, hne, hm]

theorem cleanup_of_index_none (s : Bytes) (h : stringsIndex brTag s = none) :
    cleanup s = s := by
  rw [cleanup_eq_loop, stringsCount_none _ _ h]; rfl

theorem cleanup_of_index_some (s : Bytes) (j : Nat) (h : stringsIndex brTag s = some j) :
    cleanup s = s.take j ++ brClosed ++ cleanup (s.drop (j + 4)) := by
  have hold : brTag ≠ [] := by decide
  have hlen : brTag.length = 4 := by decide
  rw [cleanup_eq_loop, stringsCount_some _ hold _ _ h, cleanup_eq_loop]
  simp only [replaceLoop, h, hlen]

theorem no_straddle (c : UInt8) (g t : Bytes) (h : ¬ brTag <:+: c :: g) :
    ¬ brTag <+: c :: g ++ 60 :: t := by
  intro hp
  rw [brTag_eq] at h hp
  match g, h, hp with
  | [], _, hp => simp at hp
  | [_], _, hp => simp at hp
  | [_, _], _, hp => simp at hp
  | a :: b :: d :: g', h, hp =>
    apply h
    simp only [List.cons_append, List.cons_prefix_cons] at hp
    obtain ⟨rfl, rfl, rfl, rfl, -⟩ := hp
    exact ⟨[], g', by simp⟩

theorem index_gap : ∀ (g t : Bytes), ¬ brTag <:+: g →
    stringsIndex brTag (g ++ brTag ++ t) = some g.length
  | [], t, _ => by
    have : brTag <+: brTag ++ t := List.prefix_append _ _
    rw [brTag_eq] at this ⊢
    simp [stringsIndex]
  | c :: g, t, h => by
    have h1 : ¬ brTag <:+: g := fun hg => h (hg.trans (List.suffix_cons c g).isInfix)
    have h2 : ¬ brTag <+: c :: g ++ brTag ++ t := by
      have := no_straddle c g ([98, 114, 62] ++ t) h
      have e : brTag ++ t = 60 :: ([98, 114, 62] ++ t) := by rw [brTag_eq]; rfl
      rw [List.append_assoc, e]; exact this
    have ih := index_gap g t h1
    simp only [List.cons_append, List.append_assoc] at h2 ih ⊢
    simp [stringsIndex, h2, ih]

theorem intercalate_two (sep g g' : Bytes) (tl : List Bytes) :
    sep.intercalate (g :: g' :: tl) = g ++ sep ++ sep.intercalate (g' :: tl) := by
  simp [List.intercalate, List.intersperse]

theorem intercalate_one (sep g : Bytes) : sep.intercalate [g] = g := by
  simp [List.intercalate, List.intersperse]

theorem take_no_occurrence (old : Bytes) (hold : old ≠ []) (s : Bytes) (j : Nat)
    (h : stringsIndex old s = some j) : ¬ old <:+: s.take j := by
  rintro ⟨a, b, hab⟩
  have hpos : 0 < old.length := List.length_pos.mpr hold
  have hlen := congrArg List.length hab
  have hj : (s.take j).length ≤ j := by simp
  simp only [List.length_append] at hlen
  apply (stringsIndex_some old s j h).2 a.length (by omega)
  have hs : s = a ++ (old ++ (b ++ s.drop j)) := by
    calc s = s.take j ++ s.drop j := (List.take_append_drop j s).symm
      _ = a ++ (old ++ (b ++ s.drop j)) := by rw [← hab]; simp
  refine ⟨b ++ s.drop j, ?_⟩
  conv_rhs => rw [hs]
  simp

theorem cleanup_no_occurrence (s : Bytes) (h : ¬ brTag <:+: s) : cleanup s = s :=
  cleanup_of_index_none s ((stringsIndex_eq_none brTag s).mpr h)

theorem cleanup_gap (g t : Bytes) (h : ¬ brTag <:+: g) :
    cleanup (g ++ brTag ++ t) = g ++ brClosed ++ cleanup t := by
  have hlen : brTag.length = 4 := by decide
  rw [cleanup_of_index_some _ _ (index_gap g t h)]
  congr 2
  · simp
  · rw [List.append_assoc, ← hlen, ← List.drop_drop]; simp

theorem split_exists : ∀ (n : Nat) (s : Bytes), s.length ≤ n →
    ∃ gaps : List Bytes, gaps ≠ [] ∧ (∀ g ∈ gaps, ¬ brTag <:+: g) ∧ s = brTag.intercalate gaps
  | 0, s, hn => by
    have : s = [] := List.length_eq_zero.mp (by omega)
    subst this
    exact ⟨[[]], by simp, by simp [brTag_eq], by simp [intercalate_one]⟩
  | n + 1, s, hn => by
    cases hi : stringsIndex brTag s with
    | none =>
      refine ⟨[s], by simp, ?_, by simp [intercalate_one]⟩
      intro g hg
      simp only [List.mem_singleton] at hg
      subst hg
      exact (stringsIndex_eq_none brTag _).mp hi
    | some j =>
      have hold : brTag ≠ [] := by decide
      have hl := stringsIndex_length brTag hold s j hi
      obtain ⟨gaps, hne, hfree, hs⟩ :=
        split_exists n (s.drop (j + brTag.length)) (by omega)
      obtain ⟨g', tl, rfl⟩ := List.exists_cons_of_ne_nil hne
      refine ⟨s.take j :: g' :: tl, by simp, ?_, ?_⟩
      · intro g hg
        rcases List.mem_cons.mp hg with rfl | hg
        · exact take_no_occurrence brTag hold s j hi
        · exact hfree g hg
      · rw [intercalate_two, ← hs]
        exact stringsIndex_split brTag s j hi

theorem cleanup_intercalate : ∀ gaps : List Bytes, (∀ g ∈ gaps, ¬ brTag <:+: g) →
    cleanup (brTag.intercalate gaps) = brClosed.intercalate gaps
  | [], _ => by simp [List.intercalate]; decide
  | [g], h => by
    rw [intercalate_one, intercalate_one]
    exact cleanup_no_occurrence g (h g (by simp))
  | g :: g' :: tl, h => by
    rw [intercalate_two, intercalate_two, cleanup_gap g _ (h g (by simp)),
      cleanup_intercalate (g' :: tl) (fun x hx => h x (List.mem_cons_of_mem _ hx))]

theorem no_occurrence_append (t : Bytes) (ht : ¬ brTag <:+: t) :
    ∀ g : Bytes, ¬ brTag <:+: g → ¬ brTag <:+: g ++ brClosed ++ t
  | [], _ => by
    rw [brClosed_eq]
    intro h
    simp only [List.nil_append, List.cons_append, List.infix_cons_iff] at h
    rcases h with h | h | h | h | h | h
    · rw [brTag_eq] at h; simp at h
    · rw [brTag_eq] at h; simp at h
    · rw [brTag_eq] at h; simp at h
    · rw [brTag_eq] at h; simp at h
    · rw [brTag_eq] at h; simp at h
    · exact ht h
  | c :: g, hg => by
    have h1 : ¬ brTag <:+: g := fun h => hg (h.trans (List.suffix_cons c g).isInfix)
    have ih := no_occurrence_append t ht g h1
    have h2 := no_straddle c g ([98, 114, 47, 62] ++ t) hg
    have e : brClosed ++ t = 60 :: ([98, 114, 47, 62] ++ t) := by rw [brClosed_eq]; rfl
    intro h
    rw [List.append_assoc, List.cons_append, List.infix_cons_iff] at h
    rcases h with h | h
    · rw [e] at h; exact h2 h
    · rw [← List.append_assoc] at h; exact ih h

theorem no_occurrence_intercalate : ∀ gaps : List Bytes, (∀ g ∈ gaps, ¬ brTag <:+: g) →
    ¬ brTag <:+: brClosed.intercalate gaps
  | [], _ => by simp [List.intercalate, brTag_eq]
  | [g], h => by rw [intercalate_one]; exact h g (by simp)
  | g :: g' :: tl, h => by
    rw [intercalate_two]
    exact no_occurrence_append _
      (no_occurrence_intercalate (g' :: tl) (fun x hx => h x (List.mem_cons_of_mem _ hx)))
      g (h g (by simp))

/-! ## The cache: hits and misses -/

theorem getFromCache_miss (c : Cache) (k : Bytes) (h : (getFromCache c k).2 = none) :
    getFromCache c k = (c, none) := by
  unfold getFromCache Cache.get at h ⊢
  cases hf : c.items.find? (fun e => decide (e.key = k)) with
  | none => rfl
  | some e => rw [hf] at h; simp at h

theorem getFromCache_eq_none_iff (c : Cache) (k : Bytes) :
    (getFromCache c k).2 = none ↔ ∀ e ∈ c.items, e.key ≠ k := by
  unfold getFromCache Cache.get
  cases hf : c.items.find? (fun e => decide (e.key = k)) with
  | none =>
    simp only [true_iff]
    intro e he
    have := List.find?_eq_none.mp hf e he
    simpa using this
  | some e =>
    simp only [false_iff, reduceCtorEq]
    intro hall
    have hk := List.find?_some hf
    exact hall e (List.mem_of_find?_eq_some hf) (by simpa using hk)

theorem getFromCache_head (c : Cache) (e : Entry) (rest : List Entry) (h : c.items = e :: rest) :
    (getFromCache c e.key).2 = some e.value := by
  simp [getFromCache, Cache.get, h]

theorem addToCache_head (c : Cache) (k v : Bytes) (hsize : 1 ≤ c.size) :
    ∃ rest, (addToCache c k v).items = { key := k, value := v, used := c.clock } :: rest := by
  unfold addToCache Cache.add
  by_cases hany : c.items.any (fun x => decide (x.key = k)) = true
  · exact ⟨c.items.filter (fun x => decide (x.key ≠ k)), by simp only [hany, if_true]⟩
  · simp only [hany]
    cases hi : c.items with
    | nil =>
      have : ¬ 1 > c.size := by omega
      exact ⟨[], by simp [this]⟩
    | cons a l =>
      by_cases hlen : (({ key := k, value := v, used := c.clock } : Entry) :: a :: l).length > c.size
      · exact ⟨(a :: l).dropLast, by simp only [hlen, if_true, Bool.false_eq_true, if_false]; rfl⟩
      · exact ⟨a :: l, by simp only [hlen, if_false, Bool.false_eq_true]⟩

theorem getFromCache_addToCache (c : Cache) (k v : Bytes) (hsize : 1 ≤ c.size) :
    (getFromCache (addToCache c k v) k).2 = some v := by
  obtain ⟨rest, h⟩ := addToCache_head c k v hsize
  exact getFromCache_head _ _ rest h

/-! ## The handler, branch by branch -/

theorem diagramHandler_empty (w : World) (st : State) :
    diagramHandler w st [] =
      { state := st
        response := (Response.new.writeHeader statusBadRequest).write (ascii "Bad request")
        trace := [] } := by
  simp [diagramHandler]

theorem diagramHandler_hit (w : World) (st : State) (s output : Bytes) (c1 : Cache)
    (hs : s ≠ []) (hget : getFromCache st.cache s = (c1, some output)) :
    diagramHandler w st s =
      { state := { st with cache := c1 }
        response := writeResponse Response.new output
        trace := [] } := by
  simp [diagramHandler, hs, hget]

theorem diagramHandler_undecodable (w : World) (st : State) (s : Bytes)
    (hs : s ≠ []) (hmiss : (getFromCache st.cache s).2 = none) (hd : decodeString s = none) :
    diagramHandler w st s =
      { state := st
        response := (Response.new.writeHeader statusBadRequest).write (ascii "Bad request")
        trace := [] } := by
  simp [diagramHandler, hs, getFromCache_miss _ _ hmiss, hd]

theorem diagramHandler_failed (w : World) (st : State) (s data : Bytes) (err : GoError)
    (hs : s ≠ []) (hmiss : (getFromCache st.cache s).2 = none) (hd : decodeString s = some data)
    (hg : (generate w st.files data).result = .error err) :
    diagramHandler w st s =
      { state := { cache := st.cache, files := (generate w st.files data).files }
        response := (Response.new.writeHeader statusInternalServerError).write
          (ascii "Unable to handle request: " ++ err)
        trace := .generate data (.error err) :: (generate w st.files data).trace } := by
  simp [diagramHandler, hs, getFromCache_miss _ _ hmiss, hd, hg]

theorem diagramHandler_rendered (w : World) (st : State) (s data output : Bytes)
    (hs : s ≠ []) (hmiss : (getFromCache st.cache s).2 = none) (hd : decodeString s = some data)
    (hg : (generate w st.files data).result = .ok output) :
    diagramHandler w st s =
      { state := { cache := addToCache st.cache s output
                   files := (generate w st.files data).files }
        response := writeResponse Response.new output
        trace := .generate data (.ok output) :: (generate w st.files data).trace } := by
  simp [diagramHandler, hs, getFromCache_miss _ _ hmiss, hd, hg]

theorem writeResponse_new (output : Bytes) :
    writeResponse Response.new output =
      { header := [(ascii "Content-Type", ascii "image/svg+xml"),
                   (ascii "Cache-Control", ascii "max-stale=31536000")]
        status := some 200
        body := output } := by
  simp [writeResponse, Response.new, Response.add, Response.writeHeader, Response.write, statusOK]

theorem badRequest_response :
    (Response.new.writeHeader statusBadRequest).write (ascii "Bad request") =
      { header := [], status := some 400, body := ascii "Bad request" } := by
  simp [Response.new, Response.writeHeader, Response.write, statusBadRequest]

theorem serverError_response (err : GoError) :
    (Response.new.writeHeader statusInternalServerError).write
        (ascii "Unable to handle request: " ++ err) =
      { header := [], status := some 500, body := ascii "Unable to handle request: " ++ err } := by
  simp [Response.new, Response.writeHeader, Response.write, statusInternalServerError]

/-- The handler calls `generate` only for a non-empty path that is not cached and
decodes, and the event records what `generate` returned. -/
theorem generate_event (w : World) (st : State) (s data : Bytes) (r : Except GoError Bytes)
    (h : Event.generate data r ∈ (diagramHandler w st s).trace) :
    s ≠ [] ∧ (getFromCache st.cache s).2 = none ∧ decodeString s = some data ∧
      r = (generate w st.files data).result := by
  by_cases hs : s = []
  · subst hs; simp [diagramHandler_empty] at h
  · cases hget : (getFromCache st.cache s).2 with
    | some output =>
      have : getFromCache st.cache s = ((getFromCache st.cache s).1, some output) := by
        rw [← hget]
      rw [diagramHandler_hit w st s output _ hs this] at h
      simp at h
    | none =>
      cases hd : decodeString s with
      | none => rw [diagramHandler_undecodable w st s hs hget hd] at h; simp at h
      | some d =>
        have key : ∀ e ∈ (generate w st.files d).trace, e ≠ Event.generate data r := by
          intro e he
          unfold generate at he
          split at he
          · simp at he; subst he; simp
          · split at he
            · simp at he; rcases he with rfl | rfl | rfl <;> simp
            · simp only [List.mem_append, List.mem_cons] at he
              split at he
              · rcases he with (((rfl | rfl | rfl | h) | h) | rfl | rfl | rfl | h) <;> simp_all
              · split at he
                · rcases he with (((rfl | rfl | rfl | h) | h) | rfl | rfl | rfl | h) <;> simp_all
                · split at he
                  · rcases he with (((rfl | rfl | rfl | h) | h) | rfl | rfl | rfl | h) <;> simp_all
                  · rcases he with (((rfl | rfl | rfl | h) | h) | rfl | rfl | rfl | h) <;> simp_all
        cases hg : (generate w st.files d).result with
        | error err =>
          rw [diagramHandler_failed w st s d err hs hget hd hg] at h
          simp only [List.mem_cons] at h
          rcases h with h | h
          · injection h with h1 h2
            subst h1
            exact ⟨hs, rfl, rfl, by rw [h2, hg]⟩
          · exact absurd rfl (key _ h)
        | ok output =>
          rw [diagramHandler_rendered w st s d output hs hget hd hg] at h
          simp only [List.mem_cons] at h
          rcases h with h | h
          · injection h with h1 h2
            subst h1
            exact ⟨hs, rfl, rfl, by rw [h2, hg]⟩
          · exact absurd rfl (key _ h)

/-! ## The request handler -/

/-- C1: a non-empty path that is not cached and decodes to `d`, with the renderer
run on `d` (the input file created and written) exiting with status zero, printing
nothing, and the output file read back as `o`, is answered 200 with
`Content-Type: image/svg+xml`, `Cache-Control: max-stale=31536000` and the body
`cleanup o`. -/
theorem diagramHandler_success (w : World) (st : State) (s d name o : Bytes)
    (hs : s ≠ []) (hmiss : (getFromCache st.cache s).2 = none)
    (hd : decodeString s = some d)
    (htemp : w.tempFile = .ok name) (hwrite : w.write = none)
    (hexit : w.cmdErr = none) (hquiet : w.cmdOutput = []) (hread : w.readFile = .ok o) :
    (diagramHandler w st s).response =
        { header := [(ascii "Content-Type", ascii "image/svg+xml"),
                     (ascii "Cache-Control", ascii "max-stale=31536000")]
          status := some 200
          body := cleanup o } ∧
      Event.write name d ∈ (diagramHandler w st s).trace ∧
      Event.run name (name ++ ascii ".svg") ∈ (diagramHandler w st s).trace := by
  have hg : (generate w st.files d).result = .ok (cleanup o) := by
    simp [generate, htemp, hwrite, hexit, hquiet, hread]
  have ht : (generate w st.files d).trace =
      [.tempFile, .write name d, .run name (name ++ ascii ".svg"),
        .readFile (name ++ ascii ".svg"), .remove (name ++ ascii ".svg"), .close name,
        .remove name] := by
    simp [generate, htemp, hwrite, hexit, hquiet, hread]
  rw [diagramHandler_rendered w st s d (cleanup o) hs hmiss hd hg, writeResponse_new, ht]
  simp

theorem diagramHandler_success_witness :
    (diagramHandler quietWorld ⟨cacheOfTwo, []⟩ (ascii "QQ")).response =
      { header := [(ascii "Content-Type", ascii "image/svg+xml"),
                   (ascii "Cache-Control", ascii "max-stale=31536000")]
        status := some 200
        body := cleanup (ascii "<svg>a<br>b</svg>") } :=
  (diagramHandler_success quietWorld ⟨cacheOfTwo, []⟩ (ascii "QQ") (ascii "A")
    (ascii "/tmp/mm_1") (ascii "<svg>a<br>b</svg>") (by decide) (by decide) (by decide)
    rfl rfl rfl rfl rfl).1

/-- C2: with a cache of capacity at least 1, when a request for `s` is answered 200
after a render (the handler called `generate`), the cache then holds the rendered
bytes under the encoded segment `s` itself, as its most recently used entry, and
the next request for `s`, whatever the renderer and the filesystem would do, gets
the same response (status, headers, body) and makes no call at all: `generate`
is not called and the renderer is not run. -/
theorem diagramHandler_repeat_hits_cache (w : World) (st : State) (s d : Bytes)
    (r : Except GoError Bytes) (hsize : 1 ≤ st.cache.size)
    (hstatus : (diagramHandler w st s).response.status = some 200)
    (hrender : Event.generate d r ∈ (diagramHandler w st s).trace) :
    ∃ output, r = .ok output ∧ decodeString s = some d ∧
      (diagramHandler w st s).response.body = output ∧
      (diagramHandler w st s).state.cache.items.head? =
        some { key := s, value := output, used := st.cache.clock } ∧
      (getFromCache (diagramHandler w st s).state.cache s).2 = some output ∧
      ∀ (w2 : World) (files2 : Files),
        (diagramHandler w2 ⟨(diagramHandler w st s).state.cache, files2⟩ s).response =
            (diagramHandler w st s).response ∧
          (diagramHandler w2 ⟨(diagramHandler w st s).state.cache, files2⟩ s).trace = [] := by
  obtain ⟨hs, hmiss, hd, hr⟩ := generate_event w st s d r hrender
  cases hg : (generate w st.files d).result with
  | error err =>
    rw [diagramHandler_failed w st s d err hs hmiss hd hg, serverError_response] at hstatus
    simp at hstatus
  | ok output =>
    have hh := diagramHandler_rendered w st s d output hs hmiss hd hg
    obtain ⟨rest, hhead⟩ := addToCache_head st.cache s output hsize
    have hget : (getFromCache (addToCache st.cache s output) s).2 = some output :=
      getFromCache_addToCache st.cache s output hsize
    refine ⟨output, by rw [hr, hg], hd, ?_, ?_, ?_, ?_⟩
    · rw [hh, writeResponse_new]
    · rw [hh]; simp [hhead]
    · rw [hh]; exact hget
    · intro w2 files2
      have hpair : getFromCache (addToCache st.cache s output) s =
          ((getFromCache (addToCache st.cache s output) s).1, some output) := by
        rw [← hget]
      rw [hh]
      rw [diagramHandler_hit w2 ⟨addToCache st.cache s output, files2⟩ s output _ hs hpair]
      exact ⟨rfl, rfl⟩

theorem diagramHandler_repeat_hits_cache_witness :
    ∃ output, (Except.ok (cleanup (ascii "<svg>a<br>b</svg>")) : Except GoError Bytes) = .ok output ∧
      decodeString (ascii "QQ") = some (ascii "A") ∧
      (diagramHandler quietWorld ⟨cacheOfOne, []⟩ (ascii "QQ")).response.body = output ∧
      (diagramHandler quietWorld ⟨cacheOfOne, []⟩ (ascii "QQ")).state.cache.items.head? =
        some { key := ascii "QQ", value := output, used := cacheOfOne.clock } ∧
      (getFromCache (diagramHandler quietWorld ⟨cacheOfOne, []⟩ (ascii "QQ")).state.cache
        (ascii "QQ")).2 = some output ∧
      ∀ (w2 : World) (files2 : Files),
        (diagramHandler w2
            ⟨(diagramHandler quietWorld ⟨cacheOfOne, []⟩ (ascii "QQ")).state.cache, files2⟩
            (ascii "QQ")).response =
            (diagramHandler quietWorld ⟨cacheOfOne, []⟩ (ascii "QQ")).response ∧
          (diagramHandler w2
            ⟨(diagramHandler quietWorld ⟨cacheOfOne, []⟩ (ascii "QQ")).state.cache, files2⟩
            (ascii "QQ")).trace = [] :=
  diagramHandler_repeat_hits_cache quietWorld ⟨cacheOfOne, []⟩ (ascii "QQ") (ascii "A")
    (.ok (cleanup (ascii "<svg>a<br>b</svg>"))) (by decide) (by decide) (by decide)

theorem getFromCache_keys (c : Cache) (k : Bytes) :
    ∀ e ∈ (getFromCache c k).1.items, ∃ e' ∈ c.items, e'.key = e.key := by
  intro e he
  unfold getFromCache Cache.get at he
  cases hf : c.items.find? (fun e => decide (e.key = k)) with
  | none => rw [hf] at he; exact ⟨e, he, rfl⟩
  | some x =>
    rw [hf] at he
    simp only [List.mem_cons] at he
    rcases he with rfl | he
    · exact ⟨x, List.mem_of_find?_eq_some hf, rfl⟩
    · exact ⟨e, (List.mem_filter.mp he).1, rfl⟩

theorem addToCache_keys (c : Cache) (k v : Bytes) :
    ∀ e ∈ (addToCache c k v).items, e.key = k ∨ e ∈ c.items := by
  intro e he
  unfold addToCache Cache.add at he
  by_cases hany : c.items.any (fun x => decide (x.key = k)) = true
  · simp only [hany, if_true, List.mem_cons] at he
    rcases he with rfl | he
    · exact Or.inl rfl
    · exact Or.inr (List.mem_filter.mp he).1
  · simp only [hany, Bool.false_eq_true, if_false] at he
    split at he
    · rcases List.mem_cons.mp (List.mem_of_mem_dropLast he) with rfl | h
      · exact Or.inl rfl
      · exact Or.inr h
    · rcases List.mem_cons.mp he with rfl | h
      · exact Or.inl rfl
      · exact Or.inr h

/-- Every key of a reachable cache decodes: only decoded segments are added. -/
theorem reachable_keys_decode (c : Cache) (hc : ReachableCache c) :
    ∀ e ∈ c.items, decodeString e.key ≠ none := by
  induction hc with
  | init size c h =>
    unfold lruNew at h
    split at h
    · cases h
    · injection h with h; subst h; simp
  | step w st path _ ih =>
    intro e he
    by_cases hs : path = []
    · subst hs; rw [diagramHandler_empty] at he; exact ih e he
    · cases hget : (getFromCache st.cache path).2 with
      | some output =>
        have hp : getFromCache st.cache path = ((getFromCache st.cache path).1, some output) := by
          rw [← hget]
        rw [diagramHandler_hit w st path output _ hs hp] at he
        obtain ⟨e', he', hk⟩ := getFromCache_keys st.cache path e he
        rw [← hk]; exact ih e' he'
      | none =>
        cases hd : decodeString path with
        | none => rw [diagramHandler_undecodable w st path hs hget hd] at he; exact ih e he
        | some d =>
          cases hg : (generate w st.files d).result with
          | error err =>
            rw [diagramHandler_failed w st path d err hs hget hd hg] at he; exact ih e he
          | ok output =>
            rw [diagramHandler_rendered w st path d output hs hget hd hg] at he
            rcases addToCache_keys st.cache path output e he with hk | hmem
            · rw [hk, hd]; simp
            · exact ih e hmem

/-- C3: from every cache reachable from the new cache by handling requests, a path
that is empty or that does not decode is answered 400 with the body `Bad request`;
the handler makes no call (it does not call `generate`, the renderer is not run)
and leaves the cache and the filesystem as they were. -/
theorem diagramHandler_bad_request (c : Cache) (hc : ReachableCache c) (w : World)
    (files : Files) (s : Bytes) (hbad : s = [] ∨ decodeString s = none) :
    (diagramHandler w ⟨c, files⟩ s).response =
        { header := [], status := some 400, body := ascii "Bad request" } ∧
      (diagramHandler w ⟨c, files⟩ s).trace = [] ∧
      (diagramHandler w ⟨c, files⟩ s).state.cache = c ∧
      (diagramHandler w ⟨c, files⟩ s).state.files = files := by
  by_cases hs : s = []
  · subst hs
    rw [diagramHandler_empty, badRequest_response]
    exact ⟨rfl, rfl, rfl, rfl⟩
  · have hd : decodeString s = none := hbad.resolve_left hs
    have hmiss : (getFromCache c s).2 = none := by
      rw [getFromCache_eq_none_iff]
      intro e he hk
      exact reachable_keys_decode c hc e he (by rw [hk, hd])
    rw [diagramHandler_undecodable w ⟨c, files⟩ s hs hmiss hd, badRequest_response]
    exact ⟨rfl, rfl, rfl, rfl⟩

theorem diagramHandler_bad_request_witness :
    (diagramHandler quietWorld
        ⟨(diagramHandler quietWorld ⟨cacheOfTwo, []⟩ (ascii "QQ")).state.cache, []⟩
        (ascii "not-valid-base64!!!")).response =
        { header := [], status := some 400, body := ascii "Bad request" } ∧
      (diagramHandler quietWorld
        ⟨(diagramHandler quietWorld ⟨cacheOfTwo, []⟩ (ascii "QQ")).state.cache, []⟩
        (ascii "not-valid-base64!!!")).trace = [] ∧
      (diagramHandler quietWorld
        ⟨(diagramHandler quietWorld ⟨cacheOfTwo, []⟩ (ascii "QQ")).state.cache, []⟩
        (ascii "not-valid-base64!!!")).state.cache =
        (diagramHandler quietWorld ⟨cacheOfTwo, []⟩ (ascii "QQ")).state.cache ∧
      (diagramHandler quietWorld
        ⟨(diagramHandler quietWorld ⟨cacheOfTwo, []⟩ (ascii "QQ")).state.cache, []⟩
        (ascii "not-valid-base64!!!")).state.files = [] :=
  diagramHandler_bad_request _
    (ReachableCache.step quietWorld ⟨cacheOfTwo, []⟩ (ascii "QQ")
      (ReachableCache.init 2 cacheOfTwo (by decide)))
    quietWorld [] (ascii "not-valid-base64!!!") (Or.inr (by decide))

/-- Every call of `generate` starts with the creation of the temporary file, and the
renderer is run exactly when that file was created and written. -/
theorem generate_runs_renderer (w : World) (fs : Files) (input name : Bytes)
    (htemp : w.tempFile = .ok name) (hwrite : w.write = none) :
    Event.run name (name ++ ascii ".svg") ∈ (generate w fs input).trace := by
  simp [generate, htemp, hwrite]

/-- C4: for a path that decodes and is not cached, when the handler's call of
`generate` returns an error, at whatever stage, the response is 500 with the body
`Unable to handle request: ` followed by the error's text; the cache is exactly as
before, so the next request for the same path calls `generate` again, and runs
the renderer again as soon as the input file is created and written. -/
theorem diagramHandler_render_failure (w : World) (st : State) (s d : Bytes) (err : GoError)
    (hd : decodeString s = some d) (hmiss : (getFromCache st.cache s).2 = none)
    (hfail : Event.generate d (.error err) ∈ (diagramHandler w st s).trace) :
    (diagramHandler w st s).response.status = some 500 ∧
      (diagramHandler w st s).response.body = ascii "Unable to handle request: " ++ err ∧
      err <:+: (diagramHandler w st s).response.body ∧
      (diagramHandler w st s).state.cache = st.cache ∧
      ∀ (w2 : World) (files2 : Files),
        Event.generate d (generate w2 files2 d).result ∈
            (diagramHandler w2 ⟨(diagramHandler w st s).state.cache, files2⟩ s).trace ∧
          ∀ name, w2.tempFile = .ok name → w2.write = none →
            Event.run name (name ++ ascii ".svg") ∈
              (diagramHandler w2 ⟨(diagramHandler w st s).state.cache, files2⟩ s).trace := by
  obtain ⟨hs, -, -, hr⟩ := generate_event w st s d _ hfail
  have hh := diagramHandler_failed w st s d err hs hmiss hd hr.symm
  have hagain : ∀ (w2 : World) (files2 : Files),
      (diagramHandler w2 ⟨st.cache, files2⟩ s).trace =
        Event.generate d (generate w2 files2 d).result :: (generate w2 files2 d).trace := by
    intro w2 files2
    cases hg : (generate w2 files2 d).result with
    | error e2 => rw [diagramHandler_failed w2 ⟨st.cache, files2⟩ s d e2 hs hmiss hd hg]
    | ok o2 => rw [diagramHandler_rendered w2 ⟨st.cache, files2⟩ s d o2 hs hmiss hd hg]
  rw [hh, serverError_response]
  refine ⟨rfl, rfl, List.infix_append' _ _ [] |> fun h => by simpa using h, rfl, ?_⟩
  intro w2 files2
  rw [hagain w2 files2]
  refine ⟨List.mem_cons_self _ _, ?_⟩
  intro name htemp hwrite
  exact List.mem_cons_of_mem _ (generate_runs_renderer w2 files2 d name htemp hwrite)

theorem diagramHandler_render_failure_witness :
    (diagramHandler exitWorld ⟨cacheOfTwo, []⟩ (ascii "QQ")).response.status = some 500 ∧
      (diagramHandler exitWorld ⟨cacheOfTwo, []⟩ (ascii "QQ")).response.body =
        ascii "Unable to handle request: " ++ ascii "exit status 1" ∧
      ascii "exit status 1" <:+: (diagramHandler exitWorld ⟨cacheOfTwo, []⟩ (ascii "QQ")).response.body ∧
      (diagramHandler exitWorld ⟨cacheOfTwo, []⟩ (ascii "QQ")).state.cache = cacheOfTwo ∧
      ∀ (w2 : World) (files2 : Files),
        Event.generate (ascii "A") (generate w2 files2 (ascii "A")).result ∈
            (diagramHandler w2
              ⟨(diagramHandler exitWorld ⟨cacheOfTwo, []⟩ (ascii "QQ")).state.cache, files2⟩
              (ascii "QQ")).trace ∧
          ∀ name, w2.tempFile = .ok name → w2.write = none →
            Event.run name (name ++ ascii ".svg") ∈
              (diagramHandler w2
                ⟨(diagramHandler exitWorld ⟨cacheOfTwo, []⟩ (ascii "QQ")).state.cache, files2⟩
                (ascii "QQ")).trace :=
  diagramHandler_render_failure exitWorld ⟨cacheOfTwo, []⟩ (ascii "QQ") (ascii "A")
    (ascii "exit status 1") (by decide) (by decide) (by decide)

/-! ## The render pipeline -/

/-- C5, as the code has it: when the renderer was run (input file created and
written) and `CombinedOutput` returns an error `e`, the exit error of a non-zero
status, `generate` returns `e` itself; the response is 500 with the body
`Unable to handle request: ` followed by the text of `e`, and it is the same
whatever the renderer printed: the combined output is logged, not surfaced. -/
theorem diagramHandler_exit_error (w : World) (st : State) (s d name : Bytes) (e : GoError)
    (hs : s ≠ []) (hmiss : (getFromCache st.cache s).2 = none)
    (hd : decodeString s = some d)
    (htemp : w.tempFile = .ok name) (hwrite : w.write = none) (hexit : w.cmdErr = some e) :
    (generate w st.files d).result = .error e ∧
      (diagramHandler w st s).response =
        { header := [], status := some 500, body := ascii "Unable to handle request: " ++ e } ∧
      ∀ t : Bytes, (diagramHandler { w with cmdOutput := t } st s).response =
        (diagramHandler w st s).response := by
  have hg : ∀ t : Bytes, (generate { w with cmdOutput := t } st.files d).result = .error e := by
    intro t
    simp [generate, htemp, hwrite, hexit]
  have hg0 : (generate w st.files d).result = .error e := by
    simp [generate, htemp, hwrite, hexit]
  refine ⟨hg0, ?_, ?_⟩
  · rw [diagramHandler_failed w st s d e hs hmiss hd hg0, serverError_response]
  · intro t
    rw [diagramHandler_failed w st s d e hs hmiss hd hg0,
      diagramHandler_failed _ st s d e hs hmiss hd (hg t)]

theorem diagramHandler_exit_error_witness :
    (generate exitWorld [] (ascii "A")).result = .error (ascii "exit status 1") ∧
      (diagramHandler exitWorld ⟨cacheOfTwo, []⟩ (ascii "QQ")).response =
        { header := [], status := some 500,
          body := ascii "Unable to handle request: " ++ ascii "exit status 1" } ∧
      ∀ t : Bytes,
        (diagramHandler { exitWorld with cmdOutput := t } ⟨cacheOfTwo, []⟩ (ascii "QQ")).response =
          (diagramHandler exitWorld ⟨cacheOfTwo, []⟩ (ascii "QQ")).response :=
  diagramHandler_exit_error exitWorld ⟨cacheOfTwo, []⟩ (ascii "QQ") (ascii "A")
    (ascii "/tmp/mm_1") (ascii "exit status 1") (by decide) (by decide) (by decide) rfl rfl rfl

/-- C5 fails as stated: the renderer prints `Parse error on line 1` and exits with
status 1; `generate` returns the exit error `exit status 1`, and the 500 body
`Unable to handle request: exit status 1` does not contain what the renderer
printed. -/
theorem exit_error_hides_output :
    decodeString (ascii "QQ") = some (ascii "A") ∧
      exitWorld.cmdOutput = ascii "Parse error on line 1" ∧
      exitWorld.cmdErr = some (ascii "exit status 1") ∧
      Event.run (ascii "/tmp/mm_1") (ascii "/tmp/mm_1.svg") ∈
        (diagramHandler exitWorld ⟨cacheOfTwo, []⟩ (ascii "QQ")).trace ∧
      (generate exitWorld [] (ascii "A")).result = .error (ascii "exit status 1") ∧
      (diagramHandler exitWorld ⟨cacheOfTwo, []⟩ (ascii "QQ")).response =
        { header := [], status := some 500,
          body := ascii "Unable to handle request: exit status 1" } ∧
      ¬ ascii "Parse error on line 1" <:+:
        (diagramHandler exitWorld ⟨cacheOfTwo, []⟩ (ascii "QQ")).response.body := by
  refine ⟨by decide, by decide, by decide, by decide, by decide, by decide, by decide⟩

/-- C6: when the renderer was run (input file created and written) and exits with
status zero but its combined output `t` is not empty, `generate` returns the error
whose text is exactly `t`, and no bytes, without reading the output file;
`generate` succeeds only when the combined output is empty; and the handler
answers a request that reaches such a render with 500. -/
theorem generate_output_is_failure (w : World) (fs : Files) (input name : Bytes)
    (htemp : w.tempFile = .ok name) (hwrite : w.write = none)
    (hexit : w.cmdErr = none) (hout : w.cmdOutput ≠ []) :
    (generate w fs input).result = .error w.cmdOutput ∧
      (∀ p, Event.readFile p ∉ (generate w fs input).trace) ∧
      (∀ (w2 : World) (fs2 : Files) (input2 output : Bytes),
        (generate w2 fs2 input2).result = .ok output → w2.cmdOutput = []) ∧
      (∀ (st : State) (s : Bytes), s ≠ [] → (getFromCache st.cache s).2 = none →
        decodeString s = some input →
        (diagramHandler w st s).response =
          { header := [], status := some 500,
            body := ascii "Unable to handle request: " ++ w.cmdOutput }) := by
  have hlen : 0 < w.cmdOutput.length := List.length_pos.mpr hout
  have hg : ∀ fs2, (generate w fs2 input).result = .error w.cmdOutput := by
    intro fs2
    simp [generate, htemp, hwrite, hexit, hlen]
  refine ⟨hg fs, ?_, ?_, ?_⟩
  · intro p
    simp [generate, htemp, hwrite, hexit, hlen]
  · intro w2 fs2 input2 output h
    unfold generate at h
    split at h
    · simp at h
    · split at h
      · simp at h
      · simp only at h
        split at h
        · simp at h
        · split at h
          · simp at h
          · rename_i hz
            exact List.length_eq_zero.mp (by omega)
  · intro st s hs hmiss hd
    rw [diagramHandler_failed w st s input w.cmdOutput hs hmiss hd (hg st.files),
      serverError_response]

theorem generate_output_is_failure_witness :
    (generate noisyWorld [] (ascii "A")).result = .error noisyWorld.cmdOutput ∧
      (∀ p, Event.readFile p ∉ (generate noisyWorld [] (ascii "A")).trace) ∧
      (∀ (w2 : World) (fs2 : Files) (input2 output : Bytes),
        (generate w2 fs2 input2).result = .ok output → w2.cmdOutput = []) ∧
      (∀ (st : State) (s : Bytes), s ≠ [] → (getFromCache st.cache s).2 = none →
        decodeString s = some (ascii "A") →
        (diagramHandler noisyWorld st s).response =
          { header := [], status := some 500,
            body := ascii "Unable to handle request: " ++ noisyWorld.cmdOutput }) :=
  generate_output_is_failure noisyWorld [] (ascii "A") (ascii "/tmp/mm_1") rfl rfl rfl
    (by decide)

/-! ## The line-break fixup -/

/-- C7: `cleanup s` is `s` with every occurrence of `<br>` replaced by `<br/>`: every
`s` is a sequence of stretches without `<br>` separated by `<br>`; however `s` is
written so, `cleanup s` is the same stretches separated by `<br/>`; and `cleanup s`
contains no `<br>`. -/
theorem cleanup_replaces_every_br (s : Bytes) :
    (∃ gaps : List Bytes, (∀ g ∈ gaps, ¬ brTag <:+: g) ∧ s = brTag.intercalate gaps) ∧
      (∀ gaps : List Bytes, (∀ g ∈ gaps, ¬ brTag <:+: g) → s = brTag.intercalate gaps →
        cleanup s = brClosed.intercalate gaps) ∧
      ¬ brTag <:+: cleanup s := by
  obtain ⟨gaps, -, hfree, hs⟩ := split_exists s.length s (Nat.le_refl _)
  refine ⟨⟨gaps, hfree, hs⟩, ?_, ?_⟩
  · intro gaps2 hfree2 hs2
    rw [hs2]
    exact cleanup_intercalate gaps2 hfree2
  · rw [hs, cleanup_intercalate gaps hfree]
    exact no_occurrence_intercalate gaps hfree

theorem cleanup_replaces_every_br_witness :
    cleanup (ascii "<p>a<br>b<br/>c<br></p>") =
        brClosed.intercalate [ascii "<p>a", ascii "b<br/>c", ascii "</p>"] ∧
      ¬ brTag <:+: cleanup (ascii "<p>a<br>b<br/>c<br></p>") :=
  ⟨(cleanup_replaces_every_br (ascii "<p>a<br>b<br/>c<br></p>")).2.1
      [ascii "<p>a", ascii "b<br/>c", ascii "</p>"] (by decide) (by decide),
    (cleanup_replaces_every_br (ascii "<p>a<br>b<br/>c<br></p>")).2.2⟩

/-- C8: a byte sequence that contains no `<br>` is returned by `cleanup` byte for
byte. -/
theorem cleanup_unchanged (s : Bytes) (h : ¬ brTag <:+: s) : cleanup s = s :=
  cleanup_no_occurrence s h

theorem cleanup_unchanged_witness :
    cleanup (ascii "<text>a<br/>b</text>") = ascii "<text>a<br/>b</text>" :=
  cleanup_unchanged (ascii "<text>a<br/>b</text>") (by decide)

/-! ## The temporary files -/

theorem svg_path_ne (name : Bytes) : name ++ ascii ".svg" ≠ name := by
  intro h
  have := congrArg List.length h
  simp [ascii] at this

theorem not_mem_osRemove (fs : Files) (name : Bytes) : name ∉ osRemove true fs name := by
  simp [osRemove]

theorem mem_osRemove_of_ne (b : Bool) (fs : Files) (name p : Bytes) (h : p ≠ name) :
    p ∈ osRemove b fs name ↔ p ∈ fs := by
  cases b <;> simp [osRemove, h]

/-- C9, as the code has it: once the input file `name` has been created, when
`generate` returns the input file does not exist if its removal succeeds; the
output file `name.svg` does not exist if the write succeeded, so that the renderer
was run and the removal of the output file scheduled, and that removal succeeds;
when the write fails the output path is neither created nor removed; and the bytes
or error returned do not depend on whether the removals succeed. -/
theorem generate_removes_files (w : World) (fs : Files) (input name : Bytes)
    (htemp : w.tempFile = .ok name) :
    (w.removeInput = true → name ∉ (generate w fs input).files) ∧
      (w.write = none → w.removeOutput = true →
        name ++ ascii ".svg" ∉ (generate w fs input).files) ∧
      (w.write ≠ none →
        (name ++ ascii ".svg" ∈ (generate w fs input).files ↔ name ++ ascii ".svg" ∈ fs)) ∧
      ∀ b1 b2 : Bool,
        (generate { w with removeInput := b1, removeOutput := b2 } fs input).result =
          (generate w fs input).result := by
  refine ⟨?_, ?_, ?_, ?_⟩
  · intro hrm
    cases hw : w.write with
    | some err => simp [generate, htemp, hw, hrm, osRemove]
    | none => simp [generate, htemp, hw, hrm, osRemove]
  · intro hw hrm
    have hne := svg_path_ne name
    simp only [generate, htemp, hw]
    rw [mem_osRemove_of_ne _ _ _ _ hne, hrm]
    exact not_mem_osRemove _ _
  · intro hw
    have hne := svg_path_ne name
    cases hw2 : w.write with
    | none => exact absurd hw2 hw
    | some err =>
      simp only [generate, htemp, hw2]
      rw [mem_osRemove_of_ne _ _ _ _ hne]
      simp [hne]
  · intro b1 b2
    simp only [generate, htemp]
    cases w.write <;> rfl

theorem generate_removes_files_witness :
    (quietWorld.removeInput = true →
        ascii "/tmp/mm_1" ∉ (generate quietWorld [ascii "/tmp/mm_1.svg"] (ascii "A")).files) ∧
      (quietWorld.write = none → quietWorld.removeOutput = true →
        ascii "/tmp/mm_1" ++ ascii ".svg" ∉
          (generate quietWorld [ascii "/tmp/mm_1.svg"] (ascii "A")).files) ∧
      (quietWorld.write ≠ none →
        (ascii "/tmp/mm_1" ++ ascii ".svg" ∈
            (generate quietWorld [ascii "/tmp/mm_1.svg"] (ascii "A")).files ↔
          ascii "/tmp/mm_1" ++ ascii ".svg" ∈ [ascii "/tmp/mm_1.svg"])) ∧
      ∀ b1 b2 : Bool,
        (generate { quietWorld with removeInput := b1, removeOutput := b2 }
            [ascii "/tmp/mm_1.svg"] (ascii "A")).result =
          (generate quietWorld [ascii "/tmp/mm_1.svg"] (ascii "A")).result :=
  generate_removes_files quietWorld [ascii "/tmp/mm_1.svg"] (ascii "A") (ascii "/tmp/mm_1") rfl

/-- C9 fails as stated: the disk is full, so the input file `/tmp/mm_1` is created
and the write to it fails; `generate` returns with the removal of the input file
as its only deferred call, and the path `/tmp/mm_1.svg`, which existed before the
call, still exists, although every removal succeeds. -/
theorem write_failure_leaves_output_path :
    fullDiskWorld.tempFile = .ok (ascii "/tmp/mm_1") ∧
      fullDiskWorld.removeInput = true ∧ fullDiskWorld.removeOutput = true ∧
      (generate fullDiskWorld [ascii "/tmp/mm_1.svg"] (ascii "A")).trace =
        [.tempFile, .write (ascii "/tmp/mm_1") (ascii "A"), .remove (ascii "/tmp/mm_1")] ∧
      ascii "/tmp/mm_1" ∉ (generate fullDiskWorld [ascii "/tmp/mm_1.svg"] (ascii "A")).files ∧
      ascii "/tmp/mm_1" ++ ascii ".svg" ∈
        (generate fullDiskWorld [ascii "/tmp/mm_1.svg"] (ascii "A")).files := by
  refine ⟨by decide, by decide, by decide, by decide, by decide, by decide⟩

/-! ## The cache: least recently used eviction -/

theorem filter_key_length (items : List Entry) (k : Bytes)
    (h : items.any (fun x => decide (x.key = k)) = true) :
    (items.filter (fun x => decide (x.key ≠ k))).length < items.length := by
  induction items with
  | nil => simp at h
  | cons a l ih =>
    by_cases ha : a.key = k
    · have := List.length_filter_le (fun x : Entry => decide (x.key ≠ k)) l
      have e : (a :: l).filter (fun x => decide (x.key ≠ k))
          = l.filter (fun x => decide (x.key ≠ k)) := by
        simp [List.filter_cons, ha]
      rw [e, List.length_cons]
      omega
    · have h2 : l.any (fun x => decide (x.key = k)) = true := by
        simpa [ha] using h
      have := ih h2
      have e : (a :: l).filter (fun x => decide (x.key ≠ k))
          = a :: l.filter (fun x => decide (x.key ≠ k)) := by
        simp [List.filter_cons, ha]
      rw [e, List.length_cons, List.length_cons]
      omega

/-- Moving an entry to the front, with the present time as its last access, keeps
the invariant. -/
theorem wf_touch (c : Cache) (hc : c.WF) (k v : Bytes)
    (h : c.items.any (fun x => decide (x.key = k)) = true) :
    Cache.WF { c with
      clock := c.clock + 1
      items := { key := k, value := v, used := c.clock } ::
        c.items.filter (fun x => decide (x.key ≠ k)) } := by
  obtain ⟨h1, h2, h3, h4, h5⟩ := hc
  have hsub : (c.items.filter (fun x => decide (x.key ≠ k))).Sublist c.items :=
    List.filter_sublist _
  have hlen := filter_key_length c.items k h
  refine ⟨h1, ?_, ?_, ?_, ?_⟩
  · simp only [List.length_cons]; omega
  · simp only [List.map_cons, List.nodup_cons]
    refine ⟨?_, (hsub.map Entry.key).nodup h3⟩
    intro hmem
    obtain ⟨e, he, hk⟩ := List.mem_map.mp hmem
    have := (List.mem_filter.mp he).2
    simp at this
    exact this hk
  · simp only [List.pairwise_cons]
    refine ⟨?_, h4.sublist hsub⟩
    intro e he
    exact h5 e (List.mem_filter.mp he).1
  · intro e he
    simp only [List.mem_cons] at he
    rcases he with rfl | he
    · simp
    · exact Nat.lt_succ_of_lt (h5 e (List.mem_filter.mp he).1)

theorem wf_add (c : Cache) (hc : c.WF) (k v : Bytes) : (addToCache c k v).WF := by
  unfold addToCache Cache.add
  by_cases hany : c.items.any (fun x => decide (x.key = k)) = true
  · simp only [hany, if_true]
    exact wf_touch c hc k v hany
  · simp only [hany, Bool.false_eq_true, if_false]
    obtain ⟨h1, h2, h3, h4, h5⟩ := hc
    have hk : ∀ e ∈ c.items, e.key ≠ k := by
      intro e he hek
      apply hany
      simp only [List.any_eq_true, decide_eq_true_eq]
      exact ⟨e, he, hek⟩
    have hnd : ((({ key := k, value := v, used := c.clock } : Entry) :: c.items).map
        Entry.key).Nodup := by
      simp only [List.map_cons, List.nodup_cons]
      refine ⟨?_, h3⟩
      intro hmem
      obtain ⟨e, he, hek⟩ := List.mem_map.mp hmem
      exact hk e he hek
    have hpw : (({ key := k, value := v, used := c.clock } : Entry) :: c.items).Pairwise
        (fun a b => b.used < a.used) := by
      simp only [List.pairwise_cons]
      exact ⟨h5, h4⟩
    have hcl : ∀ e ∈ ({ key := k, value := v, used := c.clock } : Entry) :: c.items,
        e.used < c.clock + 1 := by
      intro e he
      rcases List.mem_cons.mp he with rfl | he
      · simp
      · exact Nat.lt_succ_of_lt (h5 e he)
    by_cases hlen : (({ key := k, value := v, used := c.clock } : Entry) :: c.items).length
        > c.size
    · simp only [hlen, if_true]
      have hsub := List.dropLast_sublist
        (({ key := k, value := v, used := c.clock } : Entry) :: c.items)
      refine ⟨h1, ?_, (hsub.map Entry.key).nodup hnd, hpw.sublist hsub, ?_⟩
      · simp only [List.length_dropLast, List.length_cons]
        simp only [List.length_cons] at hlen
        omega
      · intro e he
        exact hcl e (hsub.subset he)
    · simp only [hlen, if_false]
      have hle : (({ key := k, value := v, used := c.clock } : Entry) :: c.items).length
          ≤ c.size := Nat.le_of_not_gt hlen
      exact ⟨h1, hle, hnd, hpw, hcl⟩

theorem wf_get (c : Cache) (hc : c.WF) (k : Bytes) : (getFromCache c k).1.WF := by
  unfold getFromCache Cache.get
  cases hf : c.items.find? (fun e => decide (e.key = k)) with
  | none => exact hc
  | some e =>
    have hk : e.key = k := by simpa using List.find?_some hf
    have hany : c.items.any (fun x => decide (x.key = k)) = true := by
      simp only [List.any_eq_true, decide_eq_true_eq]
      exact ⟨e, List.mem_of_find?_eq_some hf, hk⟩
    have := wf_touch c hc k e.value hany
    simp only
    rw [hk]
    exact this

theorem wf_new (size : Int) (c0 : Cache) (h : lruNew size = .ok c0) :
    c0.WF ∧ (c0.size : Int) = size ∧ c0.items = [] := by
  unfold lruNew at h
  split at h
  · cases h
  · injection h with h
    subst h
    refine ⟨⟨?_, by simp, by simp, by simp, by simp⟩, ?_, rfl⟩
    · show 1 ≤ size.toNat
      omega
    · show (size.toNat : Int) = size
      omega

theorem wf_of_accessed (c0 c : Cache) (h0 : c0.WF) (h : Accessed c0 c) :
    c.WF ∧ c.size = c0.size := by
  induction h with
  | init => exact ⟨h0, rfl⟩
  | add c s data _ ih =>
    refine ⟨wf_add c ih.1 s data, ?_⟩
    rw [← ih.2]
    unfold addToCache Cache.add
    split <;> rfl
  | get c s _ ih =>
    refine ⟨wf_get c ih.1 s, ?_⟩
    rw [← ih.2]
    unfold getFromCache Cache.get
    split <;> rfl

/-- With one entry per key, the entry found for a key is the entry that has it. -/
theorem getFromCache_of_mem (c : Cache) (hnd : (c.items.map Entry.key).Nodup) (e : Entry)
    (he : e ∈ c.items) : (getFromCache c e.key).2 = some e.value := by
  unfold getFromCache Cache.get
  cases hf : c.items.find? (fun x => decide (x.key = e.key)) with
  | none =>
    have := List.find?_eq_none.mp hf e he
    simp at this
  | some x =>
    have hk : x.key = e.key := by simpa using List.find?_some hf
    have hx := List.mem_of_find?_eq_some hf
    have : x = e := List.inj_on_of_nodup_map hnd hx he hk
    simp [this]

theorem addToCache_fresh (c : Cache) (k v : Bytes) (hk : ∀ e ∈ c.items, e.key ≠ k) :
    addToCache c k v =
      { c with
        clock := c.clock + 1
        items :=
          if (({ key := k, value := v, used := c.clock } : Entry) :: c.items).length > c.size
          then (({ key := k, value := v, used := c.clock } : Entry) :: c.items).dropLast
          else ({ key := k, value := v, used := c.clock } : Entry) :: c.items } := by
  have hany : ¬ c.items.any (fun x => decide (x.key = k)) = true := by
    simp only [List.any_eq_true, decide_eq_true_eq, not_exists, not_and]
    exact hk
  simp only [addToCache, Cache.add, hany, Bool.false_eq_true, if_false]

theorem addToCache_room (c : Cache) (k v : Bytes) (hk : ∀ e ∈ c.items, e.key ≠ k)
    (hroom : c.items.length < c.size) :
    addToCache c k v =
      { c with clock := c.clock + 1, items := ⟨k, v, c.clock⟩ :: c.items } := by
  rw [addToCache_fresh c k v hk]
  have hnot : ¬ ((⟨k, v, c.clock⟩ : Entry) :: c.items).length > c.size := by
    rw [List.length_cons]; omega
  simp only [hnot, if_false]

/-- Adding distinct keys to a new cache, no more than its capacity, stores them
all, the last one added first. -/
theorem fold_add_items (n : Nat) (kvs : List (Bytes × Bytes))
    (hnd : (kvs.map Prod.fst).Nodup) (hlen : kvs.length ≤ n) :
    (kvs.foldl (fun c kv => addToCache c kv.1 kv.2) ⟨n, 0, []⟩).size = n ∧
      (kvs.foldl (fun c kv => addToCache c kv.1 kv.2) ⟨n, 0, []⟩).items.map
        (fun e => (e.key, e.value)) = kvs.reverse := by
  induction kvs using List.reverseRecOn with
  | nil => simp
  | append_singleton l a ih =>
    rw [List.map_append, List.nodup_append] at hnd
    obtain ⟨hndl, -, hdisj⟩ := hnd
    rw [List.length_append, List.length_singleton] at hlen
    obtain ⟨ih1, ih2⟩ := ih hndl (by omega)
    rw [List.foldl_append, List.foldl_cons, List.foldl_nil]
    generalize l.foldl (fun c kv => addToCache c kv.1 kv.2) ⟨n, 0, []⟩ = c1 at ih1 ih2 ⊢
    have hfresh : ∀ e ∈ c1.items, e.key ≠ a.1 := by
      intro e he hek
      have hmem : (e.key, e.value) ∈ l.reverse := by
        rw [← ih2]; exact List.mem_map.mpr ⟨e, he, rfl⟩
      have h1 : e.key ∈ l.map Prod.fst :=
        List.mem_map.mpr ⟨(e.key, e.value), List.mem_reverse.mp hmem, rfl⟩
      exact hdisj h1 (by simp [hek])
    have hl : c1.items.length = l.length := by
      have := congrArg List.length ih2
      simpa using this
    rw [addToCache_room c1 a.1 a.2 hfresh (by omega)]
    refine ⟨ih1, ?_⟩
    rw [List.map_cons, ih2, List.reverse_append]
    rfl

/-- In a full cache, adding a key that is not cached evicts the last entry, whose
last access is the oldest, and keeps every other entry. -/
theorem add_evicts_oldest (c : Cache) (hc : c.WF) (hfull : c.items.length = c.size)
    (k v : Bytes) (hmiss : (getFromCache c k).2 = none) :
    ∃ victim ∈ c.items, (∀ e ∈ c.items, e ≠ victim → victim.used < e.used) ∧
      (getFromCache (addToCache c k v) victim.key).2 = none ∧
      (∀ e ∈ c.items, e ≠ victim → (getFromCache (addToCache c k v) e.key).2 = some e.value) ∧
      (getFromCache (addToCache c k v) k).2 = some v := by
  have hwf := wf_add c hc k v
  obtain ⟨h1, h2, h3, h4, h5⟩ := hc
  have hk : ∀ e ∈ c.items, e.key ≠ k := (getFromCache_eq_none_iff c k).mp hmiss
  have hne : c.items ≠ [] := by
    intro h0
    rw [h0] at hfull
    simp at hfull
    omega
  have hsplit : c.items = c.items.dropLast ++ [c.items.getLast hne] :=
    (List.dropLast_append_getLast hne).symm
  have hitems : (addToCache c k v).items =
      ({ key := k, value := v, used := c.clock } : Entry) :: c.items.dropLast := by
    rw [addToCache_fresh c k v hk]
    have hgt : (({ key := k, value := v, used := c.clock } : Entry) :: c.items).length
        > c.size := by
      rw [List.length_cons]; omega
    simp only [hgt, if_true]
    exact List.dropLast_cons_of_ne_nil hne
  have hmemdrop : ∀ e ∈ c.items, e ≠ c.items.getLast hne → e ∈ c.items.dropLast := by
    intro e he hev
    rw [hsplit] at he
    rcases List.mem_append.mp he with h | h
    · exact h
    · exact absurd (List.mem_singleton.mp h) hev
  rw [hsplit] at h3 h4
  rw [List.map_append, List.nodup_append] at h3
  rw [List.pairwise_append] at h4
  refine ⟨c.items.getLast hne, List.getLast_mem hne, ?_, ?_, ?_, ?_⟩
  · intro e he hev
    exact h4.2.2 e (hmemdrop e he hev) _ (List.mem_singleton.mpr rfl)
  · rw [getFromCache_eq_none_iff, hitems]
    intro e he hek
    rcases List.mem_cons.mp he with rfl | he
    · exact hk _ (List.getLast_mem hne) hek.symm
    · exact h3.2.2 (List.mem_map.mpr ⟨e, he, rfl⟩) (by simp [hek])
  · intro e he hev
    apply getFromCache_of_mem _ hwf.2.2.1 e
    rw [hitems]
    exact List.mem_cons_of_mem _ (hmemdrop e he hev)
  · exact getFromCache_addToCache c k v h1

/-- With a capacity of two or more, an entry that was just hit is still cached
after any other key is added. -/
theorem hit_survives_add (c : Cache) (hsize : 2 ≤ c.size) (k v k2 v2 : Bytes)
    (hhit : (getFromCache c k).2 = some v) (hk2 : k2 ≠ k) :
    (getFromCache (addToCache (getFromCache c k).1 k2 v2) k).2 = some v := by
  have hget : ∃ rest, (getFromCache c k).1.items = { key := k, value := v, used := c.clock } :: rest
      ∧ (getFromCache c k).1.size = c.size := by
    unfold getFromCache Cache.get at hhit ⊢
    cases hf : c.items.find? (fun e => decide (e.key = k)) with
    | none => rw [hf] at hhit; simp at hhit
    | some e =>
      rw [hf] at hhit
      have hek : e.key = k := by simpa using List.find?_some hf
      have hev : e.value = v := by simpa using hhit
      subst hek hev
      exact ⟨c.items.filter (fun x => decide (x.key ≠ e.key)), rfl, rfl⟩
  obtain ⟨rest, hitems, hsz⟩ := hget
  generalize (getFromCache c k).1 = c1 at hitems hsz
  have key : ∃ pre post, (addToCache c1 k2 v2).items =
      ({ key := k2, value := v2, used := c1.clock } : Entry) ::
        ({ key := k, value := v, used := c.clock } : Entry) :: post ∧ pre = c1.clock := by
    unfold addToCache Cache.add
    by_cases hany : c1.items.any (fun x => decide (x.key = k2)) = true
    · refine ⟨_, rest.filter (fun x => decide (x.key ≠ k2)), ?_, rfl⟩
      rw [if_pos hany]
      simp only [hitems]
      simp [List.filter_cons, hk2.symm]
    · simp only [hany, Bool.false_eq_true, if_false]
      by_cases hlen : (({ key := k2, value := v2, used := c1.clock } : Entry) ::
          c1.items).length > c1.size
      · simp only [hlen, if_true]
        have hrest : rest ≠ [] := by
          intro h0
          rw [hitems, h0] at hlen
          simp at hlen
          omega
        refine ⟨_, rest.dropLast, ?_, rfl⟩
        rw [hitems, List.dropLast_cons_of_ne_nil (by simp),
          List.dropLast_cons_of_ne_nil hrest]
      · simp only [hlen, if_false]
        exact ⟨_, rest, by rw [hitems], rfl⟩
  obtain ⟨-, post, hpost, -⟩ := key
  simp [getFromCache, Cache.get, hpost, hk2]

/-- An entry is not evicted while another cached entry has an older last access. -/
theorem newer_entry_survives_add (c : Cache) (hc : c.WF) (e e2 : Entry)
    (he : e ∈ c.items) (he2 : e2 ∈ c.items) (hlt : e2.used < e.used)
    (k v : Bytes) (hmiss : (getFromCache c k).2 = none) :
    (getFromCache (addToCache c k v) e.key).2 = some e.value := by
  by_cases hfull : c.items.length = c.size
  · obtain ⟨victim, -, hmin, -, hkeep, -⟩ := add_evicts_oldest c hc hfull k v hmiss
    apply hkeep e he
    intro hev
    subst hev
    have hne : e2 ≠ e := by
      intro h; subst h; exact Nat.lt_irrefl _ hlt
    have := hmin e2 he2 hne
    omega
  · have hwf := wf_add c hc k v
    have hroom : c.items.length < c.size := Nat.lt_of_le_of_ne hc.2.1 hfull
    have hk : ∀ x ∈ c.items, x.key ≠ k := (getFromCache_eq_none_iff c k).mp hmiss
    apply getFromCache_of_mem _ hwf.2.2.1 e
    rw [addToCache_room c k v hk hroom]
    exact List.mem_cons_of_mem _ he

/-- C10, as the model has it: for a cache built by `lru.New` with capacity `size`
(at least 1) and accessed only through `addToCache` and `getFromCache`: after
adding `N ≤ size` distinct keys to the new cache each of them is retrieved with
the bytes stored; in a full cache, adding a key that is not cached evicts exactly
one entry, the one whose most recent access (a `getFromCache` hit or an
`addToCache`) is the oldest, every other entry and the new one being retrieved
afterwards; with a capacity of 2 or more an entry that `getFromCache` has just hit
is still cached after the `addToCache` of another key that follows immediately; and at any time
an entry is still cached after the `addToCache` of a new key when another cached
entry has an older most recent access. -/
theorem cache_lru (size : Int) (c0 : Cache) (hnew : lruNew size = .ok c0) :
    (∀ kvs : List (Bytes × Bytes), (kvs.map Prod.fst).Nodup → (kvs.length : Int) ≤ size →
        ∀ kv ∈ kvs,
          (getFromCache (kvs.foldl (fun c kv => addToCache c kv.1 kv.2) c0) kv.1).2
            = some kv.2) ∧
      (∀ c, Accessed c0 c → c.items.length = c.size →
        ∀ k v, (getFromCache c k).2 = none →
          ∃ victim ∈ c.items, (∀ e ∈ c.items, e ≠ victim → victim.used < e.used) ∧
            (getFromCache (addToCache c k v) victim.key).2 = none ∧
            (∀ e ∈ c.items, e ≠ victim →
              (getFromCache (addToCache c k v) e.key).2 = some e.value) ∧
            (getFromCache (addToCache c k v) k).2 = some v) ∧
      (2 ≤ size → ∀ c, Accessed c0 c →
        ∀ k v k2 v2, (getFromCache c k).2 = some v → k2 ≠ k →
          (getFromCache (addToCache (getFromCache c k).1 k2 v2) k).2 = some v) ∧
      (∀ c, Accessed c0 c → ∀ e ∈ c.items, ∀ e2 ∈ c.items, e2.used < e.used →
        ∀ k v, (getFromCache c k).2 = none →
          (getFromCache (addToCache c k v) e.key).2 = some e.value) := by
  obtain ⟨hwf, hsz, hempty⟩ := wf_new size c0 hnew
  refine ⟨?_, ?_, ?_, ?_⟩
  · intro kvs hnd hlen kv hkv
    have hc0 : c0 = ⟨c0.size, 0, []⟩ := by
      unfold lruNew at hnew
      split at hnew
      · cases hnew
      · injection hnew with h; subst h; rfl
    have hlen2 : kvs.length ≤ c0.size := by omega
    obtain ⟨-, hitems⟩ := fold_add_items c0.size kvs hnd hlen2
    rw [← hc0] at hitems
    generalize kvs.foldl (fun c kv => addToCache c kv.1 kv.2) c0 = c at hitems
    have hmem : kv ∈ c.items.map (fun e => (e.key, e.value)) := by
      rw [hitems]; exact List.mem_reverse.mpr hkv
    obtain ⟨e, he, hek⟩ := List.mem_map.mp hmem
    have hkeys : (c.items.map Entry.key).Nodup := by
      have h1 : c.items.map Entry.key
          = (c.items.map (fun e => (e.key, e.value))).map Prod.fst := by
        rw [List.map_map]; rfl
      rw [h1, hitems, List.map_reverse]
      exact List.nodup_reverse.mpr hnd
    have := getFromCache_of_mem c hkeys e he
    rw [← hek]
    exact this
  · intro c hc hfull k v hmiss
    exact add_evicts_oldest c (wf_of_accessed c0 c hwf hc).1 hfull k v hmiss
  · intro h2 c hc k v k2 v2 hhit hk2
    have hcs := (wf_of_accessed c0 c hwf hc).2
    exact hit_survives_add c (by omega) k v k2 v2 hhit hk2
  · intro c hc e he e2 he2 hlt k v hmiss
    exact newer_entry_survives_add c (wf_of_accessed c0 c hwf hc).1 e e2 he he2 hlt k v hmiss

theorem cache_lru_witness :
    (∀ kvs : List (Bytes × Bytes), (kvs.map Prod.fst).Nodup → (kvs.length : Int) ≤ 2 →
        ∀ kv ∈ kvs,
          (getFromCache (kvs.foldl (fun c kv => addToCache c kv.1 kv.2) cacheOfTwo) kv.1).2
            = some kv.2) ∧
      (∀ c, Accessed cacheOfTwo c → c.items.length = c.size →
        ∀ k v, (getFromCache c k).2 = none →
          ∃ victim ∈ c.items, (∀ e ∈ c.items, e ≠ victim → victim.used < e.used) ∧
            (getFromCache (addToCache c k v) victim.key).2 = none ∧
            (∀ e ∈ c.items, e ≠ victim →
              (getFromCache (addToCache c k v) e.key).2 = some e.value) ∧
            (getFromCache (addToCache c k v) k).2 = some v) ∧
      ((2 : Int) ≤ 2 → ∀ c, Accessed cacheOfTwo c →
        ∀ k v k2 v2, (getFromCache c k).2 = some v → k2 ≠ k →
          (getFromCache (addToCache (getFromCache c k).1 k2 v2) k).2 = some v) ∧
      (∀ c, Accessed cacheOfTwo c → ∀ e ∈ c.items, ∀ e2 ∈ c.items, e2.used < e.used →
        ∀ k v, (getFromCache c k).2 = none →
          (getFromCache (addToCache c k v) e.key).2 = some e.value) :=
  cache_lru 2 cacheOfTwo (by decide)

/-- C10 fails as stated.  At capacity 1, `a` is added and then hit, yet the next
`addToCache`, of `b`, evicts it.  At capacity 2, `a` is added and hit, and `b` is
added without any eviction; the next eviction, by the `addToCache` of `c`, is of
`a`, the entry that was hit, and `b` stays. -/
theorem hit_unprotected_from_next_eviction :
    (lruNew 1 = .ok cacheOfOne ∧
      (getFromCache (addToCache cacheOfOne (ascii "a") (ascii "x")) (ascii "a")).2
        = some (ascii "x") ∧
      (getFromCache (addToCache hitInOne (ascii "b") (ascii "y")) (ascii "a")).2 = none) ∧
    (lruNew 2 = .ok cacheOfTwo ∧
      (getFromCache (addToCache cacheOfTwo (ascii "a") (ascii "x")) (ascii "a")).2
        = some (ascii "x") ∧
      (getFromCache hitInTwoThenAdd (ascii "a")).2 = some (ascii "x") ∧
      (getFromCache hitInTwoThenAdd (ascii "b")).2 = some (ascii "y") ∧
      (getFromCache (addToCache hitInTwoThenAdd (ascii "c") (ascii "z")) (ascii "a")).2
        = none ∧
      (getFromCache (addToCache hitInTwoThenAdd (ascii "c") (ascii "z")) (ascii "b")).2
        = some (ascii "y")) := by
  refine ⟨⟨by decide, by decide, by decide⟩,
    ⟨by decide, by decide, by decide, by decide, by decide, by decide⟩⟩

end Mermaid
